import Mathlib

/-!
# Verification of the `MDConverter` HTML-to-Markdown pipeline

Shallow embedding of `src/standalone/html_to_markdown_converter.py`
(class `WebpageToMarkdownConverter`).  Strings are modelled as `List Char`,
Python byte strings as `List Nat`, the filesystem as a list of existing
paths.  Each definition is annotated with the source function it embeds.
-/

namespace MDConverter

/-! ## Python primitives -/

/-- The ASCII whitespace characters matched by Python's regex class `\s`
(and by `str.strip()` with no argument): space, tab, newline, carriage
return, vertical tab, form feed.  (Non-ASCII Unicode whitespace is outside
the model; every input considered here is ASCII.) -/
def isPySpace (c : Char) : Bool :=
  c = ' ' || c = '\t' || c = '\n' || c = '\r' || c = '\x0b' || c = '\x0c'

/-- The character class `[ \t]` of `_fix_markdown_formatting` (horizontal
whitespace: space or tab). -/
def isHorizWS (c : Char) : Bool :=
  c = ' ' || c = '\t'

/-- `leadsWith pat s` holds when `pat` is an initial segment of `s`:
Python's `s.startswith(pat)`. -/
def leadsWith : List Char → List Char → Bool
  | [], _ => true
  | _ :: _, [] => false
  | p :: ps, c :: cs => p = c && leadsWith ps cs

/-- `containsSub pat s`: `pat` occurs as a contiguous substring of `s`
(Python's `pat in s`). -/
def containsSub (pat : List Char) : List Char → Bool
  | [] => leadsWith pat []
  | s@(_ :: rest) => leadsWith pat s || containsSub pat rest

/-- Two adjacent space characters occur somewhere in the string. -/
def hasDoubleSpace : List Char → Bool
  | a :: b :: rest => (a = ' ' && b = ' ') || hasDoubleSpace (b :: rest)
  | _ => false

/-- The string starts with a space character. -/
def headIsSpace : List Char → Bool
  | [] => false
  | c :: _ => c = ' '

/-- Python's `re.sub(cls + '+', ' ', s)` for a one-character-class regex
`cls`: every maximal run of characters satisfying `p` is replaced by a
single space.  `inRun` records whether the previous character belonged to
a run (the run's single space has already been emitted).
Used for `re.sub(r'\s+', ' ', text)` in `_clean_text` (line 82) and
`re.sub(r'[ \t]+', ' ', markdown_content)` in `_fix_markdown_formatting`
(line 238). -/
def collapseWithin (p : Char → Bool) : List Char → Bool → List Char
  | [], _ => []
  | c :: rest, inRun =>
    if p c then
      if inRun then collapseWithin p rest true
      else ' ' :: collapseWithin p rest true
    else c :: collapseWithin p rest false

/-- `re.sub(r'\s+', ' ', text)` — `_clean_text`, line 82. -/
def collapsePySpaces (s : List Char) : List Char :=
  collapseWithin isPySpace s false

/-- `re.sub(r'[ \t]+', ' ', markdown_content)` — `_fix_markdown_formatting`,
line 238. -/
def collapseHoriz (s : List Char) : List Char :=
  collapseWithin isHorizWS s false

/-- Python's `re.sub(r'\n{3,}', '\n\n', s)` (`_fix_markdown_formatting`,
line 225): each maximal run of `k ≥ 3` newlines is replaced by exactly two,
runs of one or two newlines are kept; i.e. a run of `k` newlines becomes
`min k 2`.  `k` counts the newlines of the current run seen so far. -/
def collapseNLAux : List Char → Nat → List Char
  | [], _ => []
  | c :: rest, k =>
    if c = '\n' then
      if 2 ≤ k then collapseNLAux rest (k + 1)
      else '\n' :: collapseNLAux rest (k + 1)
    else c :: collapseNLAux rest 0

/-- `re.sub(r'\n{3,}', '\n\n', markdown_content)` — line 225. -/
def collapseNewlines (s : List Char) : List Char :=
  collapseNLAux s 0

/-- Drop leading Python whitespace (the left half of `str.strip()`). -/
def lstripWS (s : List Char) : List Char :=
  s.dropWhile (fun c => isPySpace c)

/-- Drop trailing Python whitespace (the right half of `str.strip()`).
The result is always an initial segment of the input. -/
def rstripWS : List Char → List Char
  | [] => []
  | c :: rest =>
    match rstripWS rest with
    | [] => if isPySpace c then [] else [c]
    | r => c :: r

/-- Python's `str.strip()`: remove leading and trailing whitespace. -/
def pyStrip (s : List Char) : List Char :=
  rstripWS (lstripWS s)

/-- Python's `s.replace(pat, rep)`: replace every non-overlapping
occurrence of `pat`, scanning left to right.  Structural recursion on a
fuel bounded by the string length (each step consumes at least one input
character when `pat` is non-empty, as in every use in the source). -/
def replaceAllAux (pat rep : List Char) : Nat → List Char → List Char
  | _, [] => []
  | 0, s => s
  | fuel + 1, c :: rest =>
    if leadsWith pat (c :: rest) then
      rep ++ replaceAllAux pat rep fuel ((c :: rest).drop pat.length)
    else
      c :: replaceAllAux pat rep fuel rest

/-- Python's `s.replace(pat, rep)`. -/
def replaceAll (pat rep s : List Char) : List Char :=
  replaceAllAux pat rep s.length s

/-- The five HTML entity strings decoded by `_clean_text`. -/
def entNbsp : List Char := ['&', 'n', 'b', 's', 'p', ';']

def entAmp : List Char := ['&', 'a', 'm', 'p', ';']

def entLt : List Char := ['&', 'l', 't', ';']

def entGt : List Char := ['&', 'g', 't', ';']

def entQuot : List Char := ['&', 'q', 'u', 'o', 't', ';']

/-- `_clean_text` (lines 76–92): on a non-empty string, collapse all
whitespace runs to single spaces, strip leading/trailing whitespace, then
decode `&nbsp; &amp; &lt; &gt; &quot;` — in exactly that order (entity
decoding happens AFTER whitespace normalization). -/
def clean_text (text : List Char) : List Char :=
  if text = [] then []
  else
    let s1 := collapsePySpaces text
    let s2 := pyStrip s1
    let s3 := replaceAll entNbsp [' '] s2
    let s4 := replaceAll entAmp ['&'] s3
    let s5 := replaceAll entLt ['<'] s4
    let s6 := replaceAll entGt ['>'] s5
    replaceAll entQuot ['"'] s6

/-! ## Metadata extraction (`_extract_metadata`, lines 131–160) -/

/-- One `<meta>` element: its `name`, `property` and `content` attributes
(`none` when the attribute is absent). -/
structure MetaTag where
  nameAttr : Option (List Char)
  propAttr : Option (List Char)
  contentAttr : Option (List Char)

/-- Python's `a or b` on optional strings: `a` when it is present and
non-empty (truthy), otherwise `b`.  Embeds
`meta.get('name') or meta.get('property')` (line 143). -/
def pyOrElse (a b : Option (List Char)) : Option (List Char) :=
  match a with
  | some s => if s = [] then b else some s
  | none => b

/-- Python truthiness of an optional string: present and non-empty. -/
def pyTruthy : Option (List Char) → Bool
  | some s => !s.isEmpty
  | none => false

def nDescription : List Char := "description".toList

def nOgDescription : List Char := "og:description".toList

def nAuthor : List Char := "author".toList

def nOgAuthor : List Char := "og:author".toList

def nKeywords : List Char := "keywords".toList

def nOgTitle : List Char := "og:title".toList

def nOgUrl : List Char := "og:url".toList

def nPublishedTime : List Char := "article:published_time".toList

def nPubdate : List Char := "pubdate".toList

def kTitle : String := "title"

def kDescription : String := "description"

def kAuthor : String := "author"

def kKeywords : String := "keywords"

def kOgTitle : String := "og_title"

def kUrl : String := "url"

def kPublished : String := "published"

/-- The `if name in [...] / elif ...` lookup table of lines 147–158:
which metadata key (if any) a recognized meta name maps to. -/
def keyFor (nm : List Char) : Option String :=
  if nm = nDescription || nm = nOgDescription then some kDescription
  else if nm = nAuthor || nm = nOgAuthor then some kAuthor
  else if nm = nKeywords then some kKeywords
  else if nm = nOgTitle then some kOgTitle
  else if nm = nOgUrl then some kUrl
  else if nm = nPublishedTime || nm = nPubdate then some kPublished
  else none

/-- The key/value pair a single `<meta>` tag contributes (lines 143–158):
`name = meta.get('name') or meta.get('property')`,
`content = meta.get('content')`, proceed only `if name and content`
(both truthy), then map the name through the lookup table. -/
def metaKV (m : MetaTag) : Option (String × List Char) :=
  match pyOrElse m.nameAttr m.propAttr, m.contentAttr with
  | some nm, some c =>
    if nm = [] || c = [] then none
    else (keyFor nm).map (fun k => (k, c))
  | some _, none => none
  | none, _ => none

/-- The metadata map: an insertion-ordered association list modelling the
Python `dict` (no duplicate keys). -/
abbrev Metadata : Type := List (String × List Char)

/-- Python `dict` assignment `d[k] = v`: overwrite in place when the key
is present (keys are unique, so the first hit is the only one), append
otherwise. -/
def dictInsert (acc : Metadata) (k : String) (v : List Char) : Metadata :=
  match acc with
  | [] => [(k, v)]
  | p :: rest => if p.1 == k then (k, v) :: rest else p :: dictInsert rest k v

/-- Python `d.get(k)` / `k in d` combined: the value stored at `k`. -/
def dictGet (acc : Metadata) (k : String) : Option (List Char) :=
  (acc.find? (fun p => p.1 == k)).map Prod.snd

/-- The body of the `for meta in meta_tags:` loop (lines 142–158). -/
def processMeta (acc : Metadata) (m : MetaTag) : Metadata :=
  match metaKV m with
  | some (k, v) => dictInsert acc k v
  | none => acc

/-- The parts of the parsed document `_extract_metadata` looks at:
the text content of each `<title>` element in document order (so
`soup.find('title')` is the head of the list) and every `<meta>` element
in document order. -/
structure HtmlDoc where
  titles : List (List Char)
  metas : List MetaTag

/-- `_extract_metadata` (lines 131–160): start from the first title's
cleaned text (when a title exists), then fold the meta-tag loop over all
`<meta>` elements in document order. -/
def extract_metadata (d : HtmlDoc) : Metadata :=
  let md0 : Metadata :=
    match d.titles.head? with
    | some t => dictInsert ([] : Metadata) kTitle (clean_text t)
    | none => ([] : Metadata)
  d.metas.foldl processMeta md0

/-! ## Image processing (`_process_image`, lines 94–129, and the image
loop of `convert`, lines 265–274) -/

/-- A filesystem snapshot: the list of paths that exist.  `Path.exists()`
is membership; `shutil.copy2` adds the destination path. -/
abbrev FS : Type := List (List Char)

/-- `Path.exists()` on the model. -/
def fsExists (fs : FS) (p : List Char) : Bool :=
  fs.contains p

/-- `pathlib`'s `/` operator: join with a single separator (no
normalization). -/
def joinPath (a b : List Char) : List Char :=
  a ++ '/' :: b

/-- `os.path.basename`: the part after the last `/` (the whole string
when it has no `/`). -/
def basenameAux (acc : List Char) : List Char → List Char
  | [] => acc.reverse
  | '/' :: rest => basenameAux [] rest
  | c :: rest => basenameAux (c :: acc) rest

/-- `os.path.basename(img_src)` — line 109. -/
def basename (s : List Char) : List Char :=
  basenameAux [] s

/-- Python's `img_src.lstrip('./')` (lines 115–116): strips ALL leading
characters belonging to the set `{'.', '/'}` — a character-set strip, not
removal of the two-character prefix `./`. -/
def lstripDotSlash (s : List Char) : List Char :=
  s.dropWhile (fun c => c = '.' || c = '/')

def httpScheme : List Char := "http://".toList

def httpsScheme : List Char := "https://".toList

def dataScheme : List Char := "data:".toList

def imagesDirName : List Char := "images".toList

/-- The path-configuration fields of the converter used by the image
stage: the resolved assets folder (`self.assets_folder`, `none` when no
folder pattern matched), the input file's directory (`self.base_dir`) and
the output images directory (`self.images_dir`). -/
structure ImgCtx where
  assets_folder : Option (List Char)
  base_dir : List Char
  images_dir : List Char

/-- `_process_image` (lines 94–129).  Returns the new `src` string, the
filesystem after any copy, and the list of copies performed (source path,
destination path).  Mirrors the source exactly: empty src → `""`;
`http(s)://` → unchanged; `data:` → `""`; otherwise try the three
candidate paths in order, first existing wins, copy unless the
destination basename already exists, return `images/<basename>`; no
match (or no assets folder) → unchanged. -/
def process_image (fs : FS) (ctx : ImgCtx) (img_src : List Char) :
    List Char × FS × List (List Char × List Char) :=
  if img_src = [] then ([], fs, [])
  else if leadsWith httpScheme img_src || leadsWith httpsScheme img_src then
    (img_src, fs, [])
  else if leadsWith dataScheme img_src then ([], fs, [])
  else
    let img_filename := basename img_src
    match ctx.assets_folder with
    | some assets =>
      let potential_paths : List (List Char) :=
        [joinPath assets img_filename,
         joinPath assets (lstripDotSlash img_src),
         joinPath ctx.base_dir (lstripDotSlash img_src)]
      match potential_paths.find? (fun p => fsExists fs p) with
      | some img_path =>
        let dest_path := joinPath ctx.images_dir img_filename
        if fsExists fs dest_path then
          (imagesDirName ++ '/' :: img_filename, fs, [])
        else
          (imagesDirName ++ '/' :: img_filename, dest_path :: fs,
            [(img_path, dest_path)])
      | none => (img_src, fs, [])
    | none => (img_src, fs, [])

/-- An `<img>` element: its `src` and `alt` attributes (`none` when
absent). -/
structure Img where
  src : Option (List Char)
  alt : Option (List Char)

def altImage : List Char := "Image".toList

/-- One iteration of the image loop in `convert` (lines 265–274):
`src = img.get('src', '')`; when truthy, compute the replacement and
assign it ONLY when it is itself truthy (`if new_src:`), then fill a
falsy `alt` with `"Image"`.  When `src` is falsy nothing at all is done
to the element. -/
def process_img_element (fs : FS) (ctx : ImgCtx) (img : Img) :
    Img × FS × List (List Char × List Char) :=
  let src := img.src.getD []
  if src = [] then (img, fs, [])
  else
    let r := process_image fs ctx src
    let img2 := if r.1 = [] then img else { img with src := some r.1 }
    let img3 := if pyTruthy img2.alt then img2 else { img2 with alt := some altImage }
    (img3, r.2.1, r.2.2)

/-- The whole `for img in soup.find_all('img'):` loop (lines 265–274)
over the document's `<img>` elements in document order, threading the
filesystem and accumulating the copies performed. -/
def image_stage (fs : FS) (ctx : ImgCtx) :
    List Img → List Img × FS × List (List Char × List Char)
  | [] => ([], fs, [])
  | img :: rest =>
    let r := process_img_element fs ctx img
    let rr := image_stage r.2.1 ctx rest
    (r.1 :: rr.1, rr.2.1, r.2.2 ++ rr.2.2)

/-- `self.processed_images: Dict[str, str] = {}` (line 58) together with
everything the rest of the source ever does to it: nothing.  No statement
of `convert`, `_process_image` or any other method writes to it, so the
record after any conversion run is the record it started with. -/
def processed_images_after_run (init : List (List Char × List Char))
    (_fs : FS) (_ctx : ImgCtx) (_imgs : List Img) :
    List (List Char × List Char) :=
  init

/-- The summary statistic `len(self.processed_images)` (lines 302, 400). -/
def processed_images_count (record : List (List Char × List Char)) : Nat :=
  record.length

/-- The guard `if self.processed_images:` (line 301) deciding whether the
image summary line is printed. -/
def summary_line_printed (record : List (List Char × List Char)) : Bool :=
  !record.isEmpty

/-! ## Content selection (`_extract_main_content`, lines 162–191) -/

/-- An abstract handle to a node of the parsed tree. -/
structure Node where
  id : Nat
deriving DecidableEq

/-- What `_extract_main_content` observes of the (already cleaned)
document: the result of `soup.select_one(sel)` for each CSS selector, the
`<body>` element (if any), and the tree root (`soup` itself).  CSS
matching itself is delegated to the parsing library and is out of the
embedded scope; the selection ORDER and fallback logic below are the
repository's own code. -/
structure SelEnv where
  selectOne : String → Option Node
  body : Option Node
  root : Node

/-- The third selector of the list, `[role="main"]`. -/
def selRoleMain : String := "[role=\"main\"]"

/-- The ordered selector list `main_content_selectors` (lines 178–182). -/
def main_content_selectors : List String :=
  [r"main", r"article", selRoleMain,
   r".post-content", r".article-content", r".entry-content",
   r".content", r".main-content"]

/-- The `for selector in main_content_selectors:` loop (lines 184–187):
return the first selector's match, in list order. -/
def firstMatch (env : SelEnv) : List String → Option Node
  | [] => none
  | sel :: rest =>
    match env.selectOne sel with
    | some n => some n
    | none => firstMatch env rest

/-- `_extract_main_content`, selection part (lines 177–191): first
matching selector in list order, else the `<body>` element, else the
whole tree (`soup`).  It runs after the denylist-removal loop of lines
164–175, which only mutates the tree and does not affect this logic. -/
def extract_main_content (env : SelEnv) : Node :=
  match firstMatch env main_content_selectors with
  | some n => n
  | none =>
    match env.body with
    | some b => b
    | none => env.root

/-! ## Markdown formatting fixups (`_fix_markdown_formatting`,
lines 222–243)

Steps 2–5 are scans implementing the four `re.sub` calls with
group-reinserting replacements.  Each is written with a fuel argument
(instantiated with the string length, an upper bound on the number of
scan steps, each of which consumes at least one character). -/

/-- Length of the leading run of `#` characters. -/
def countHashes : List Char → Nat
  | '#' :: rest => countHashes rest + 1
  | _ => 0

/-- `re.sub(r'\n(#{1,6}\s)', r'\n\n\1', s)` (line 228): at a newline
followed by 1–6 `#` and a whitespace character, insert one extra newline;
scanning resumes after the matched whitespace character.  (With more than
six `#` the required whitespace fails to follow the 1–6 hashes the
pattern can take, so there is no match.) -/
def fixHeadingsBefore : Nat → List Char → List Char
  | 0, s => s
  | _, [] => []
  | fuel + 1, '\n' :: rest =>
    let k := countHashes rest
    if 1 ≤ k ∧ k ≤ 6 then
      match rest.drop k with
      | c :: rest2 =>
        if isPySpace c then
          '\n' :: '\n' :: (List.replicate k '#' ++ c :: fixHeadingsBefore fuel rest2)
        else '\n' :: fixHeadingsBefore fuel rest
      | [] => '\n' :: fixHeadingsBefore fuel rest
    else '\n' :: fixHeadingsBefore fuel rest
  | fuel + 1, c :: rest => c :: fixHeadingsBefore fuel rest

/-- `re.sub(r'(#{1,6}.*)\n([^\n#])', r'\1\n\n\2', s)` (line 229): a match
can only start at a `#`; group 1 then necessarily extends to the next
newline (`.*` cannot cross it and anything it gives back would have to
match `\n`), and the match requires one following character that is
neither a newline nor `#`.  On a match an extra newline is inserted and
scanning resumes after that character; on failure the scan advances one
character. -/
def fixHeadingsAfter : Nat → List Char → List Char
  | 0, s => s
  | _, [] => []
  | fuel + 1, '#' :: rest =>
    let line := List.takeWhile (fun c => c ≠ '\n') ('#' :: rest)
    match List.dropWhile (fun c => c ≠ '\n') ('#' :: rest) with
    | '\n' :: d :: rest2 =>
      if d ≠ '\n' ∧ d ≠ '#' then
        line ++ '\n' :: '\n' :: d :: fixHeadingsAfter fuel rest2
      else '#' :: fixHeadingsAfter fuel rest
    | _ => '#' :: fixHeadingsAfter fuel rest
  | fuel + 1, c :: rest => c :: fixHeadingsAfter fuel rest

/-- The alternation `(\*|\+|-|\d+\.)` of line 232: parse a list marker at
the head of the string, returning the marker text and the remainder.
`\d+\.` must take the maximal digit run (a shorter one is followed by a
digit, not `.`). -/
def parseListMarker : List Char → Option (List Char × List Char)
  | '*' :: r => some (['*'], r)
  | '+' :: r => some (['+'], r)
  | '-' :: r => some (['-'], r)
  | s@(c :: _) =>
    if c.isDigit then
      match List.dropWhile Char.isDigit s with
      | '.' :: r => some (List.takeWhile Char.isDigit s ++ ['.'], r)
      | _ => none
    else none
  | [] => none

/-- `re.sub(r'\n(\*|\+|-|\d+\.)\s', r'\n\n\1 ', s)` (line 232): at a
newline followed by a list marker and a whitespace character, insert an
extra newline and replace the matched whitespace character by a literal
space; scanning resumes after it. -/
def fixListFormatting : Nat → List Char → List Char
  | 0, s => s
  | _, [] => []
  | fuel + 1, '\n' :: rest =>
    match parseListMarker rest with
    | some (m, c :: rest2) =>
      if isPySpace c then
        '\n' :: '\n' :: (m ++ ' ' :: fixListFormatting fuel rest2)
      else '\n' :: fixListFormatting fuel rest
    | _ => '\n' :: fixListFormatting fuel rest
  | fuel + 1, c :: rest => c :: fixListFormatting fuel rest

/-- `re.sub(r'\n(>)', r'\n\n\1', s)` (line 235): insert an extra newline
before every `>` that follows a newline; scanning resumes after the
`>`. -/
def fixQuoteFormatting : Nat → List Char → List Char
  | 0, s => s
  | _, [] => []
  | fuel + 1, '\n' :: '>' :: rest => '\n' :: '\n' :: '>' :: fixQuoteFormatting fuel rest
  | fuel + 1, c :: rest => c :: fixQuoteFormatting fuel rest

/-- `_fix_markdown_formatting` (lines 222–243): the seven fixups in
source order — collapse 3+ newlines, blank line before headings, blank
line after headings, blank line before list items, blank line before
quotes, collapse horizontal whitespace, strip. -/
def fix_markdown_formatting (s : List Char) : List Char :=
  let s1 := collapseNewlines s
  let s2 := fixHeadingsBefore s1.length s1
  let s3 := fixHeadingsAfter s2.length s2
  let s4 := fixListFormatting s3.length s3
  let s5 := fixQuoteFormatting s4.length s4
  let s6 := collapseHoriz s5
  pyStrip s6

/-! ## Loader (`convert`, lines 249–256) -/

/-- An abstract I/O failure (permission error, vanished file, ...). -/
structure IOFailure where
  msg : String

/-- Strict UTF-8 decoding, as performed by `open(..., encoding='utf-8')`:
rejects stray continuation bytes, overlong encodings, surrogates,
code points above U+10FFFF, and truncated sequences. -/
def utf8Decode : List Nat → Option (List Char)
  | [] => some []
  | b :: rest =>
    if b < 0x80 then
      (utf8Decode rest).map (fun s => Char.ofNat b :: s)
    else if b < 0xC2 then none
    else if b < 0xE0 then
      match rest with
      | b2 :: rest2 =>
        if 0x80 ≤ b2 && b2 < 0xC0 then
          (utf8Decode rest2).map
            (fun s => Char.ofNat ((b - 0xC0) * 0x40 + (b2 - 0x80)) :: s)
        else none
      | [] => none
    else if b < 0xF0 then
      match rest with
      | b2 :: b3 :: rest3 =>
        let lo2 := if b = 0xE0 then 0xA0 else 0x80
        let hi2 := if b = 0xED then 0xA0 else 0xC0
        if lo2 ≤ b2 && b2 < hi2 && 0x80 ≤ b3 && b3 < 0xC0 then
          (utf8Decode rest3).map
            (fun s => Char.ofNat ((b - 0xE0) * 0x1000 + (b2 - 0x80) * 0x40 + (b3 - 0x80)) :: s)
        else none
      | _ => none
    else if b < 0xF5 then
      match rest with
      | b2 :: b3 :: b4 :: rest4 =>
        let lo2 := if b = 0xF0 then 0x90 else 0x80
        let hi2 := if b = 0xF4 then 0x90 else 0xC0
        if lo2 ≤ b2 && b2 < hi2 && 0x80 ≤ b3 && b3 < 0xC0 && 0x80 ≤ b4 && b4 < 0xC0 then
          (utf8Decode rest4).map
            (fun s => Char.ofNat ((b - 0xF0) * 0x40000 + (b2 - 0x80) * 0x1000
              + (b3 - 0x80) * 0x40 + (b4 - 0x80)) :: s)
        else none
      | _ => none
    else none

/-- `open(..., encoding='latin-1')`: each byte maps to the code point of
the same value; decoding never fails, whatever the byte sequence. -/
def latin1Decode (bs : List Nat) : List Char :=
  bs.map Char.ofNat

/-- The file-reading step of `convert` (lines 249–256) over the outcome
of reading the file's bytes: an I/O failure propagates unchanged (caught
only by the top-level handler in `main`, which terminates the run);
otherwise decode as UTF-8, and exactly on a `UnicodeDecodeError` retry
once with latin-1.  No further decode attempts exist in the source. -/
def read_html_file (raw : Except IOFailure (List Nat)) :
    Except IOFailure (List Char) :=
  match raw with
  | .error e => .error e
  | .ok bs =>
    match utf8Decode bs with
    | some s => .ok s
    | none => .ok (latin1Decode bs)

/-! ## Spec-worded variant of the candidate-path construction (for the
refinement comparison of claim C7) -/

/-- Modelled from the spec: "src with leading `./` stripped" read as
removing the two-character PREFIX `./` once.  To be compared with the
source's `lstripDotSlash` (Python `lstrip('./')`), which strips every
leading character from the set. -/
def stripDotSlashOnce (s : List Char) : List Char :=
  if leadsWith ['.', '/'] s then s.drop 2 else s

/-- `process_image` with the candidate paths built exactly as the
specification words them (`stripDotSlashOnce` in place of the source's
`lstripDotSlash`); identical to `process_image` in every other respect. -/
def process_image_specWording (fs : FS) (ctx : ImgCtx) (img_src : List Char) :
    List Char × FS × List (List Char × List Char) :=
  if img_src = [] then ([], fs, [])
  else if leadsWith httpScheme img_src || leadsWith httpsScheme img_src then
    (img_src, fs, [])
  else if leadsWith dataScheme img_src then ([], fs, [])
  else
    let img_filename := basename img_src
    match ctx.assets_folder with
    | some assets =>
      let potential_paths : List (List Char) :=
        [joinPath assets img_filename,
         joinPath assets (stripDotSlashOnce img_src),
         joinPath ctx.base_dir (stripDotSlashOnce img_src)]
      match potential_paths.find? (fun p => fsExists fs p) with
      | some img_path =>
        let dest_path := joinPath ctx.images_dir img_filename
        if fsExists fs dest_path then
          (imagesDirName ++ '/' :: img_filename, fs, [])
        else
          (imagesDirName ++ '/' :: img_filename, dest_path :: fs,
            [(img_path, dest_path)])
      | none => (img_src, fs, [])
    | none => (img_src, fs, [])

/-- The full image stage with `self.processed_images` threaded through:
the loop body of lines 265–274 contains no assignment to
`self.processed_images` (the dictionary appears in the source only at its
initialization, line 58, and in the two reads of lines 301–302 and 400),
so the record leaves the stage exactly as it entered it. -/
def convert_image_stage (fs : FS) (ctx : ImgCtx) (imgs : List Img)
    (processed_images : List (List Char × List Char)) :
    (List Img × FS × List (List Char × List Char)) × List (List Char × List Char) :=
  (image_stage fs ctx imgs, processed_images)

/-! ## Concrete inputs used by witnesses and counterexamples -/

def cexHeading : List Char := "a\n# h\nb".toList

def titleNbsp : List Char := "a&nbsp;&nbsp;b".toList

def titleWitness : List Char := " A  &amp; B\tC ".toList

def ctxNoAssets : ImgCtx := ⟨none, "B".toList, "I".toList⟩

def imgDataSrc : Img := ⟨some ("data:image/png;base64,AAA".toList), none⟩

def imgNoSrc : Img := ⟨none, none⟩

def imgFoo : Img := ⟨some ("foo.png".toList), none⟩

def fsFoo : FS := ["A/foo.png".toList]

def ctxAssetsA : ImgCtx := ⟨some ("A".toList), "B".toList, "I".toList⟩

def srcDotDot : List Char := "..foo.png".toList

def fsBar : FS := ["A/bar.png".toList]

def imgBar : Img := ⟨some ("bar.png".toList), none⟩

def descr1 : List Char := "first description".toList

def descr2 : List Char := "second description".toList

def envWitness : SelEnv :=
  ⟨fun s => if s == r".content" then some ⟨7⟩ else none, some ⟨1⟩, ⟨0⟩⟩

/-! ## General lemmas -/

theorem firstMatch_append_none (env : SelEnv) (pre rest : List String)
    (h : ∀ s ∈ pre, env.selectOne s = none) :
    firstMatch env (pre ++ rest) = firstMatch env rest := by
  induction pre with
  | nil => rfl
  | cons a l ih =>
    have ha : env.selectOne a = none := h a (by simp)
    simp only [List.cons_append, firstMatch, ha]
    exact ih (fun s hs => h s (by simp [hs]))

theorem firstMatch_eq_none (env : SelEnv) (l : List String)
    (h : ∀ s ∈ l, env.selectOne s = none) : firstMatch env l = none := by
  induction l with
  | nil => rfl
  | cons a t ih =>
    have ha : env.selectOne a = none := h a (by simp)
    simp only [firstMatch, ha]
    exact ih (fun s hs => h s (by simp [hs]))

/-! ## Claims -/

/-- **C9.** The loader first attempts UTF-8 decoding; exactly on a decode
failure it falls back to latin-1, which accepts any byte sequence, so a
successfully read file never fails to decode (the recovery is local); an
I/O failure of the read itself propagates unchanged (to the top-level
handler, which terminates the run). -/
theorem c9_utf8_then_latin1_fallback :
    (∀ (bs : List Nat) (s : List Char), utf8Decode bs = some s →
        read_html_file (.ok bs) = .ok s) ∧
    (∀ bs : List Nat, utf8Decode bs = none →
        read_html_file (.ok bs) = .ok (latin1Decode bs)) ∧
    (∀ bs : List Nat, ∃ s : List Char, read_html_file (.ok bs) = .ok s) ∧
    (∀ e : IOFailure, read_html_file (.error e) = .error e) := by
  refine ⟨?_, ?_, ?_, ?_⟩
  · intro bs s h; simp [read_html_file, h]
  · intro bs h; simp [read_html_file, h]
  · intro bs
    cases h : utf8Decode bs with
    | none => exact ⟨latin1Decode bs, by simp [read_html_file, h]⟩
    | some s => exact ⟨s, by simp [read_html_file, h]⟩
  · intro e; rfl

/-- Witness for C9: a pure-ASCII file decodes as UTF-8; the byte `0xFF`
(invalid UTF-8) falls back to latin-1. -/
theorem c9_witness :
    read_html_file (.ok [0x61]) = .ok ['a'] ∧
    read_html_file (.ok [0xFF]) = .ok (latin1Decode [0xFF]) :=
  ⟨c9_utf8_then_latin1_fallback.1 [0x61] ['a'] (by decide),
   c9_utf8_then_latin1_fallback.2.1 [0xFF] (by decide)⟩

/-- **C8.** Content selection tries the selectors in the fixed order
`main`, `article`, `[role="main"]`, `.post-content`, `.article-content`,
`.entry-content`, `.content`, `.main-content` and returns the first
element matched by any selector in list order; if none match it returns
the `<body>` element, and with no body the whole tree root. -/
theorem c8_selector_priority :
    (∀ (env : SelEnv) (pre post : List String) (sel : String) (n : Node),
        main_content_selectors = pre ++ sel :: post →
        (∀ s ∈ pre, env.selectOne s = none) →
        env.selectOne sel = some n →
        extract_main_content env = n) ∧
    (∀ (env : SelEnv) (b : Node),
        (∀ s ∈ main_content_selectors, env.selectOne s = none) →
        env.body = some b →
        extract_main_content env = b) ∧
    (∀ env : SelEnv,
        (∀ s ∈ main_content_selectors, env.selectOne s = none) →
        env.body = none →
        extract_main_content env = env.root) := by
  refine ⟨?_, ?_, ?_⟩
  · intro env pre post sel n hsplit hpre hsel
    unfold extract_main_content
    rw [hsplit, firstMatch_append_none env pre (sel :: post) hpre]
    simp [firstMatch, hsel]
  · intro env b hall hb
    unfold extract_main_content
    rw [firstMatch_eq_none env _ hall, hb]
  · intro env hall hb
    unfold extract_main_content
    rw [firstMatch_eq_none env _ hall, hb]

/-- Witness for C8: an environment in which only `.content` matches
(all selectors before it miss) selects that element; the selector list
splits as required at position 6. -/
theorem c8_witness : extract_main_content envWitness = ⟨7⟩ :=
  c8_selector_priority.1 envWitness
    [r"main", r"article", selRoleMain, r".post-content", r".article-content",
     r".entry-content"]
    [r".main-content"] (r".content") ⟨7⟩
    (by decide) (by decide) (by decide)

/-- **C2 (amended).** The image rewrite record `self.processed_images` is
initialized empty and never written: it leaves the image stage exactly as
it entered, so after a run started from the empty record its count is 0
and the summary line (printed only when the record is truthy) is never
printed. -/
theorem c2_record_never_populated (fs : FS) (ctx : ImgCtx) (imgs : List Img)
    (init : List (List Char × List Char)) :
    (convert_image_stage fs ctx imgs init).2 = init ∧
    processed_images_count (convert_image_stage fs ctx imgs []).2 = 0 ∧
    summary_line_printed (convert_image_stage fs ctx imgs []).2 = false :=
  ⟨rfl, rfl, rfl⟩

/-- Counterexample for C2 as stated: a run that processes (and rewrites)
one `<img>` reference still produces an empty record — there is no
"one entry per processed reference", and the reported count is 0, not
1. -/
theorem c2_counterexample :
    ((image_stage fsFoo ctxAssetsA [imgFoo]).1.map Img.src
        = [some ("images/foo.png".toList)]) ∧
    (convert_image_stage fsFoo ctxAssetsA [imgFoo] []).2 = [] ∧
    processed_images_count (convert_image_stage fsFoo ctxAssetsA [imgFoo] []).2 ≠ 1 := by
  decide

theorem dataScheme_eq : dataScheme = ['d', 'a', 't', 'a', ':'] := rfl

theorem httpScheme_eq : httpScheme = ['h', 't', 't', 'p', ':', '/', '/'] := rfl

theorem httpsScheme_eq : httpsScheme = ['h', 't', 't', 'p', 's', ':', '/', '/'] := rfl

/-- A src starting with `data:` starts with `'d'`. -/
theorem leadsWith_data_shape (s : List Char) (h : leadsWith dataScheme s = true) :
    ∃ t, s = 'd' :: t := by
  cases s with
  | nil => rw [dataScheme_eq] at h; simp [leadsWith] at h
  | cons c t =>
    rw [dataScheme_eq] at h
    simp only [leadsWith, Bool.and_eq_true, decide_eq_true_eq] at h
    exact ⟨t, by rw [h.1]⟩

/-- `_process_image` on a `data:` src returns the empty string and
performs no filesystem action (lines 104–106). -/
theorem process_image_data (fs : FS) (ctx : ImgCtx) (s : List Char)
    (h : leadsWith dataScheme s = true) :
    process_image fs ctx s = ([], fs, []) := by
  obtain ⟨t, rfl⟩ := leadsWith_data_shape s h
  unfold process_image
  rw [if_neg (by simp)]
  rw [if_neg (by rw [httpScheme_eq, httpsScheme_eq]; simp [leadsWith])]
  rw [if_pos h]

/-- **C1 (amended).** For an `<img>` whose `src` begins with `data:`,
`_process_image` computes the empty string as the replacement, but the
rewrite loop of `convert` assigns only truthy replacements
(`if new_src:`), so the element's `src` is left unchanged (the `data:`
reference persists into the rendered output); no file is copied. -/
theorem c1_data_src_left_unchanged (fs : FS) (ctx : ImgCtx) (img : Img)
    (s : List Char) (hsrc : img.src = some s)
    (hdata : leadsWith dataScheme s = true) :
    (process_img_element fs ctx img).1.src = some s ∧
    (process_img_element fs ctx img).2.1 = fs ∧
    (process_img_element fs ctx img).2.2 = [] := by
  obtain ⟨t, rfl⟩ := leadsWith_data_shape s hdata
  have hpi := process_image_data fs ctx ('d' :: t) hdata
  simp only [process_img_element, hsrc, Option.getD_some, hpi]
  rw [if_neg (by simp)]
  by_cases halt : pyTruthy img.alt = true <;> simp [halt, hsrc]

/-- Witness for C1 (amended): the concrete `data:` image keeps its
original src through the image stage. -/
theorem c1_witness :
    (process_img_element [] ctxNoAssets imgDataSrc).1.src
        = some ("data:image/png;base64,AAA".toList) ∧
    (process_img_element [] ctxNoAssets imgDataSrc).2.1 = [] ∧
    (process_img_element [] ctxNoAssets imgDataSrc).2.2 = [] :=
  c1_data_src_left_unchanged [] ctxNoAssets imgDataSrc
    ("data:image/png;base64,AAA".toList) rfl (by decide)

/-- Counterexample for C1 as stated: after the image-rewrite stage the
`data:` src is NOT cleared to the empty string — it still holds the
original inline reference. -/
theorem c1_counterexample :
    (process_img_element [] ctxNoAssets imgDataSrc).1.src ≠ some [] ∧
    (process_img_element [] ctxNoAssets imgDataSrc).1.src
        = some ("data:image/png;base64,AAA".toList) := by
  decide

/-- **C6 (amended).** The `alt` placeholder is governed by the `if src:`
guard (lines 267–274): an `<img>` with a truthy `src` and falsy `alt`
gets `alt = "Image"`, while an `<img>` whose `src` is empty or absent is
left entirely untouched — its missing `alt` is NOT filled. -/
theorem c6_alt_filled_only_under_truthy_src (fs : FS) (ctx : ImgCtx) (img : Img) :
    (pyTruthy img.src = true → pyTruthy img.alt = false →
        (process_img_element fs ctx img).1.alt = some altImage) ∧
    (pyTruthy img.src = false → (process_img_element fs ctx img).1 = img) := by
  constructor
  · intro hsrc halt
    obtain ⟨s, hs⟩ : ∃ s, img.src = some s := by
      cases h : img.src with
      | none => rw [h] at hsrc; simp [pyTruthy] at hsrc
      | some s => exact ⟨s, rfl⟩
    have hne : s ≠ [] := by
      rw [hs] at hsrc; simpa [pyTruthy, List.isEmpty_iff] using hsrc
    simp only [process_img_element, hs, Option.getD_some, if_neg hne]
    by_cases hr : (process_image fs ctx s).1 = [] <;> simp [hr, halt]
  · intro hsrc
    have hnil : img.src.getD [] = [] := by
      cases h : img.src with
      | none => rfl
      | some s =>
        rw [h] at hsrc
        simpa [pyTruthy, List.isEmpty_iff] using hsrc
    simp [process_img_element, hnil]

/-- Witness for C6 (amended): an `<img src="bar.png">` with no alt gets
the placeholder; its src case is the truthy branch. -/
theorem c6_witness :
    (process_img_element fsBar ctxAssetsA imgBar).1.alt = some altImage :=
  (c6_alt_filled_only_under_truthy_src fsBar ctxAssetsA imgBar).1
    (by decide) (by decide)

/-- Counterexample for C6 as stated: an `<img>` with no `src` and no
`alt` comes out of the image stage with its `alt` still absent, not
`"Image"`. -/
theorem c6_counterexample :
    (process_img_element [] ctxNoAssets imgNoSrc).1.alt = none ∧
    (process_img_element [] ctxNoAssets imgNoSrc).1.alt ≠ some altImage := by
  decide

/-- **C10.** Invariant of the image-rewrite loop: an `<img>` whose `src`
is non-empty before the stage still has a non-empty `src` afterwards —
the loop assigns a replacement only when the replacement is itself a
non-empty string (`if new_src:`), so no `src` is ever set to the empty
string. -/
theorem c10_nonempty_src_stays_nonempty (fs : FS) (ctx : ImgCtx) (img : Img)
    (s : List Char) (hsrc : img.src = some s) (hne : s ≠ []) :
    ∃ s', (process_img_element fs ctx img).1.src = some s' ∧ s' ≠ [] := by
  simp only [process_img_element, hsrc, Option.getD_some, if_neg hne]
  by_cases hr : (process_image fs ctx s).1 = []
  · refine ⟨s, ?_, hne⟩
    by_cases halt : pyTruthy img.alt = true <;> simp [hr, halt, hsrc]
  · refine ⟨(process_image fs ctx s).1, ?_, hr⟩
    by_cases halt : pyTruthy { img with src := some (process_image fs ctx s).1 }.alt = true <;>
      simp [hr, halt]

/-- Witness for C10: a concrete non-empty local src stays non-empty
(here it is rewritten to `images/bar.png`). -/
theorem c10_witness :
    ∃ s', (process_img_element fsBar ctxAssetsA imgBar).1.src = some s' ∧ s' ≠ [] :=
  c10_nonempty_src_stays_nonempty fsBar ctxAssetsA imgBar ("bar.png".toList)
    rfl (by decide)

/-- **C7 (amended).** For a non-empty local src (not `http://`,
`https://`, `data:`): with a resolved assets folder the three candidates
`<assets>/<basename>`, `<assets>/<src with all leading '.' and '/'
characters stripped>`, `<inputDir>/<src stripped likewise>` are tried in
that order and the first that exists wins; on a match the file is copied
to the output images directory under its basename unless that destination
already exists (at most one copy per destination filename), and the src
is rewritten to `images/<basename>`; with no assets folder or no existing
candidate the src is unchanged and nothing is copied. -/
theorem c7_candidate_order (fs : FS) (ctx : ImgCtx) (src : List Char)
    (hne : src ≠ []) (hh : leadsWith httpScheme src = false)
    (hhs : leadsWith httpsScheme src = false)
    (hd : leadsWith dataScheme src = false) :
    process_image fs ctx src =
      match ctx.assets_folder with
      | none => (src, fs, [])
      | some assets =>
        match
          (if fsExists fs (joinPath assets (basename src)) = true then
            some (joinPath assets (basename src))
          else if fsExists fs (joinPath assets (lstripDotSlash src)) = true then
            some (joinPath assets (lstripDotSlash src))
          else if fsExists fs (joinPath ctx.base_dir (lstripDotSlash src)) = true then
            some (joinPath ctx.base_dir (lstripDotSlash src))
          else none) with
        | some hit =>
          (imagesDirName ++ '/' :: basename src,
           if fsExists fs (joinPath ctx.images_dir (basename src)) = true then fs
           else joinPath ctx.images_dir (basename src) :: fs,
           if fsExists fs (joinPath ctx.images_dir (basename src)) = true then []
           else [(hit, joinPath ctx.images_dir (basename src))])
        | none => (src, fs, []) := by
  unfold process_image
  rw [if_neg hne, if_neg (by simp [hh, hhs]), if_neg (by simp [hd])]
  cases ctx.assets_folder with
  | none => rfl
  | some assets =>
    dsimp only
    by_cases h1 : fsExists fs (joinPath assets (basename src)) = true
    · simp only [List.find?_cons_of_pos _ h1, if_pos h1]
      split <;> rfl
    · simp only [List.find?_cons_of_neg _ h1, if_neg h1]
      by_cases h2 : fsExists fs (joinPath assets (lstripDotSlash src)) = true
      · simp only [List.find?_cons_of_pos _ h2, if_pos h2]
        split <;> rfl
      · simp only [List.find?_cons_of_neg _ h2, if_neg h2]
        by_cases h3 : fsExists fs (joinPath ctx.base_dir (lstripDotSlash src)) = true
        · simp only [List.find?_cons_of_pos _ h3, if_pos h3]
          split <;> rfl
        · simp only [List.find?_cons_of_neg _ h3, if_neg h3, List.find?_nil]

/-- Witness for C7 (amended): `bar.png` is found as the first candidate
`A/bar.png`, copied to `I/bar.png` (the destination does not yet exist),
and the src is rewritten to `images/bar.png`. -/
theorem c7_witness :
    process_image fsBar ctxAssetsA ("bar.png".toList) =
      ("images/bar.png".toList, "I/bar.png".toList :: fsBar,
        [("A/bar.png".toList, "I/bar.png".toList)]) := by
  rw [c7_candidate_order fsBar ctxAssetsA ("bar.png".toList)
    (by decide) (by decide) (by decide) (by decide)]
  decide

/-- Counterexample for C7 as stated: for `src = "..foo.png"` (no leading
`./` prefix) the spec-worded candidates leave the src unchanged, but the
source's `lstrip('./')` strips BOTH leading dots, finds `A/foo.png`, and
rewrites the src to `images/..foo.png` — the two disagree. -/
theorem c7_counterexample :
    (process_image fsFoo ctxAssetsA srcDotDot).1 = "images/..foo.png".toList ∧
    (process_image_specWording fsFoo ctxAssetsA srcDotDot).1 = srcDotDot ∧
    (process_image fsFoo ctxAssetsA srcDotDot).1 ≠
      (process_image_specWording fsFoo ctxAssetsA srcDotDot).1 := by
  decide

/-! ## Idempotence of the individual collapsing rules (for C3) -/

/-- Run collapsing is idempotent (for any class containing the space
character it emits): re-collapsing an already collapsed string changes
nothing. -/
theorem collapseWithin_idem (p : Char → Bool) (hp : p ' ' = true)
    (s : List Char) :
    ∀ b, collapseWithin p (collapseWithin p s b) b = collapseWithin p s b := by
  induction s with
  | nil => intro b; rfl
  | cons c rest ih =>
    intro b
    by_cases hc : p c = true
    · cases b with
      | false =>
        simp only [collapseWithin, hc, if_true, Bool.false_eq_true, if_false]
        simp only [collapseWithin, hp, if_true]
        rw [ih true]
      | true =>
        simp only [collapseWithin, hc, if_true]
        exact ih true
    · simp only [collapseWithin, hc, Bool.false_eq_true, if_false]
      rw [ih false]

/-- Newline-run collapsing is idempotent: after one pass every newline
run has length at most two, and runs of at most two are kept. -/
theorem collapseNLAux_idem (s : List Char) :
    ∀ k, collapseNLAux (collapseNLAux s k) (min k 2) = collapseNLAux s k := by
  induction s with
  | nil => intro k; rfl
  | cons c rest ih =>
    intro k
    by_cases hc : c = '\n'
    · subst hc
      by_cases hk : 2 ≤ k
      · have h2 : min (k + 1) 2 = 2 := by omega
        have h0 : min k 2 = 2 := by omega
        simp only [collapseNLAux, if_pos rfl, if_pos hk, h0]
        have := ih (k + 1)
        rw [h2] at this
        exact this
      · have h2 : min (k + 1) 2 = k + 1 := by omega
        have h0 : min k 2 = k := by omega
        simp only [collapseNLAux, if_pos rfl, if_neg hk, h0, if_true]
        have := ih (k + 1)
        rw [h2] at this
        rw [this]
    · simp only [collapseNLAux, if_neg hc]
      have := ih 0
      rw [show min 0 2 = 0 from rfl] at this
      rw [this]

/-- Left-stripping is idempotent. -/
theorem lstripWS_idem (s : List Char) : lstripWS (lstripWS s) = lstripWS s := by
  induction s with
  | nil => rfl
  | cons c rest ih =>
    by_cases hc : isPySpace c = true
    · simp only [lstripWS, List.dropWhile_cons, hc, if_true] at *
      exact ih
    · simp only [lstripWS, List.dropWhile_cons, hc, Bool.false_eq_true, if_false]

/-- A non-empty right-strip result starts with the input's head. -/
theorem rstripWS_cons_head (c d : Char) (t u : List Char)
    (h : rstripWS (c :: t) = d :: u) : d = c := by
  rw [rstripWS] at h
  cases h2 : rstripWS t with
  | nil =>
    rw [h2] at h
    by_cases hc : isPySpace c = true
    · rw [if_pos hc] at h; exact absurd h (by simp)
    · rw [if_neg hc] at h
      exact (List.cons.injEq .. ▸ h).1.symm
  | cons r0 r' =>
    rw [h2] at h
    exact ((List.cons.injEq .. ▸ h)).1.symm

/-- Right-stripping is idempotent. -/
theorem rstripWS_idem (s : List Char) : rstripWS (rstripWS s) = rstripWS s := by
  induction s with
  | nil => rfl
  | cons c rest ih =>
    cases h : rstripWS rest with
    | nil =>
      by_cases hc : isPySpace c = true
      · simp [rstripWS, h, hc]
      · simp [rstripWS, h, hc]
    | cons r0 r' =>
      have h1 : rstripWS (c :: rest) = c :: r0 :: r' := by
        rw [rstripWS, h]
      rw [h1]
      have h2 : rstripWS (r0 :: r') = r0 :: r' := by
        rw [← h, ih, h]
      rw [rstripWS, h2]

/-- The head of a left-strip result is not whitespace. -/
theorem lstripWS_head_not_space (s : List Char) (c : Char) (t : List Char)
    (h : lstripWS s = c :: t) : isPySpace c = false := by
  induction s with
  | nil => simp [lstripWS] at h
  | cons a rest ih =>
    by_cases ha : isPySpace a = true
    · rw [lstripWS, List.dropWhile_cons, if_pos ha] at h
      exact ih h
    · rw [lstripWS, List.dropWhile_cons, if_neg ha] at h
      have : a = c := (List.cons.injEq .. ▸ h).1
      rw [← this]
      exact Bool.not_eq_true _ ▸ ha

/-- `str.strip()` is idempotent. -/
theorem pyStrip_idem (s : List Char) : pyStrip (pyStrip s) = pyStrip s := by
  unfold pyStrip
  cases h : lstripWS s with
  | nil => simp [rstripWS, lstripWS, List.dropWhile_nil]
  | cons c t =>
    have hc : isPySpace c = false := lstripWS_head_not_space s c t h
    cases h2 : rstripWS (c :: t) with
    | nil => simp [lstripWS, rstripWS, List.dropWhile_nil]
    | cons d u =>
      have hd : d = c := rstripWS_cons_head c d t u h2
      have h3 : lstripWS (d :: u) = d :: u := by
        rw [lstripWS, List.dropWhile_cons, if_neg (by rw [hd, hc]; simp)]
      rw [h3, ← h2, rstripWS_idem, h2]

/-- **C3 (amended).** The formatter's collapsing rules are individually
idempotent — newline-run collapsing (`\n{3,}` → `\n\n`), horizontal
whitespace collapsing (`[ \t]+` → a space), and the final strip — but
the full `_fix_markdown_formatting` pipeline is NOT idempotent (see its
counterexample): the blank-line-insertion substitutions add a newline on
every further application. -/
theorem c3_individual_collapses_idempotent (s : List Char) :
    collapseNewlines (collapseNewlines s) = collapseNewlines s ∧
    collapseHoriz (collapseHoriz s) = collapseHoriz s ∧
    pyStrip (pyStrip s) = pyStrip s := by
  refine ⟨?_, ?_, pyStrip_idem s⟩
  · have := collapseNLAux_idem s 0
    rw [show min 0 2 = 0 from rfl] at this
    exact this
  · exact collapseWithin_idem isHorizWS (by decide) s false

/-- Counterexample for C3 as stated: on `"a\n# h\nb"` one application of
`_fix_markdown_formatting` yields `"a\n\n# h\n\nb"`, and a second
application yields `"a\n\n\n# h\n\nb"` — applying the fixups to their own
output changes it again. -/
theorem c3_counterexample :
    fix_markdown_formatting (fix_markdown_formatting cexHeading) ≠
      fix_markdown_formatting cexHeading := by
  decide

/-! ## Metadata-map lemmas (for C4 and C5) -/

theorem dictGet_dictInsert_same (acc : Metadata) (k : String) (v : List Char) :
    dictGet (dictInsert acc k v) k = some v := by
  induction acc with
  | nil => simp [dictInsert, dictGet, List.find?]
  | cons p rest ih =>
    by_cases hp : (p.1 == k) = true
    · rw [dictInsert, if_pos hp]
      unfold dictGet
      rw [List.find?_cons_of_pos _ (by simp)]
      rfl
    · rw [dictInsert, if_neg hp]
      unfold dictGet
      rw [List.find?_cons_of_neg _ (by simpa using hp)]
      exact ih

theorem dictGet_dictInsert_other (acc : Metadata) (k1 k : String) (v : List Char)
    (hne : k1 ≠ k) : dictGet (dictInsert acc k1 v) k = dictGet acc k := by
  induction acc with
  | nil =>
    unfold dictInsert dictGet
    rw [List.find?_cons_of_neg _ (by simp [hne])]
  | cons p rest ih =>
    by_cases hp : (p.1 == k1) = true
    · have hpk : p.1 = k1 := by simpa using hp
      rw [dictInsert, if_pos hp]
      unfold dictGet
      rw [List.find?_cons_of_neg _ (by simp [hne]),
        List.find?_cons_of_neg _ (by simp [hpk, hne])]
    · rw [dictInsert, if_neg hp]
      by_cases hq : (p.1 == k) = true
      · unfold dictGet
        rw [List.find?_cons_of_pos _ (by exact hq), List.find?_cons_of_pos _ (by exact hq)]
      · unfold dictGet
        rw [List.find?_cons_of_neg _ (by simpa using hq),
          List.find?_cons_of_neg _ (by simpa using hq)]
        exact ih

/-- The meta-tag loop, characterized: after folding, the value stored at
`k` is the content of the LAST tag (in list order) contributing to `k`,
and the accumulator's previous value when no tag contributes. -/
theorem dictGet_foldl_processMeta (ms : List MetaTag) (k : String) :
    ∀ acc : Metadata,
      dictGet (ms.foldl processMeta acc) k =
        match ((ms.filterMap metaKV).filter (fun q => q.1 == k)).getLast? with
        | some q => some q.2
        | none => dictGet acc k := by
  induction ms with
  | nil => intro acc; simp
  | cons m rest ih =>
    intro acc
    rw [List.foldl_cons]
    cases hm : metaKV m with
    | none =>
      have hpm : processMeta acc m = acc := by rw [processMeta, hm]
      rw [hpm, List.filterMap_cons_none hm]
      exact ih acc
    | some q =>
      obtain ⟨k1, v1⟩ := q
      have hpm : processMeta acc m = dictInsert acc k1 v1 := by rw [processMeta, hm]
      rw [hpm, List.filterMap_cons_some hm]
      by_cases hk : ((k1, v1).1 == k) = true
      · rw [List.filter_cons_of_pos (by exact hk)]
        have hkk : k1 = k := by simpa using hk
        cases htail : (rest.filterMap metaKV).filter (fun q => q.1 == k) with
        | nil =>
          rw [ih (dictInsert acc k1 v1), htail]
          simp only [List.getLast?_singleton, List.getLast?_nil]
          subst hkk
          exact dictGet_dictInsert_same acc k1 v1
        | cons x xs =>
          rw [ih (dictInsert acc k1 v1), htail, List.getLast?_cons_cons]
          cases hgl : (x :: xs).getLast? with
          | none => exact absurd (List.getLast?_eq_none_iff.mp hgl) (by simp)
          | some q' => rfl
      · rw [List.filter_cons_of_neg (by exact hk)]
        rw [ih (dictInsert acc k1 v1)]
        cases htail : ((rest.filterMap metaKV).filter (fun q => q.1 == k)).getLast? with
        | none =>
          exact dictGet_dictInsert_other acc k1 k v1 (by simpa using hk)
        | some q' => rfl

/-- **C4.** When several `<meta>` tags map to the same recognized key,
the extracted value is the content of the LAST such tag in document
order (dict overwrite semantics); and a tag contributes only if it has
both a name (from `name` or `property`) and a `content` attribute. -/
theorem c4_last_meta_wins :
    (∀ (d : HtmlDoc) (k : String) (q : String × List Char),
        ((d.metas.filterMap metaKV).filter (fun r => r.1 == k)).getLast? = some q →
        dictGet (extract_metadata d) k = some q.2) ∧
    (∀ (m : MetaTag) (q : String × List Char), metaKV m = some q →
        m.contentAttr ≠ none ∧ (m.nameAttr ≠ none ∨ m.propAttr ≠ none)) := by
  constructor
  · intro d k q hlast
    unfold extract_metadata
    rw [dictGet_foldl_processMeta d.metas k _, hlast]
  · intro m q hm
    unfold metaKV at hm
    cases hn : pyOrElse m.nameAttr m.propAttr with
    | none => rw [hn] at hm; exact absurd hm (by simp)
    | some nm =>
      cases hc : m.contentAttr with
      | none => rw [hn, hc] at hm; simp at hm
      | some c =>
        refine ⟨by simp [hc], ?_⟩
        cases hna : m.nameAttr with
        | some s => exact Or.inl (by simp [hna])
        | none =>
          right
          intro hpa
          rw [hna, hpa] at hn
          simp [pyOrElse] at hn

/-- Witness for C4: two `<meta name="description">` tags with different
contents — the second (last) one wins. -/
theorem c4_witness :
    dictGet (extract_metadata ⟨[], [⟨some nDescription, none, some descr1⟩,
        ⟨some nDescription, none, some descr2⟩]⟩) kDescription = some descr2 :=
  c4_last_meta_wins.1
    ⟨[], [⟨some nDescription, none, some descr1⟩,
      ⟨some nDescription, none, some descr2⟩]⟩
    kDescription (kDescription, descr2) (by decide)

/-! ## Double-space and substring lemmas (for C5) -/

theorem hds_cons (c : Char) (l : List Char) :
    hasDoubleSpace (c :: l) = ((c = ' ' && headIsSpace l) || hasDoubleSpace l) := by
  cases l with
  | nil => simp [hasDoubleSpace, headIsSpace]
  | cons b t => simp [hasDoubleSpace, headIsSpace]

/-- Collapsed output never contains two adjacent spaces, and when the
scan is mid-run the next emitted character is not a space. -/
theorem collapseWithin_no_double (p : Char → Bool) (hp : p ' ' = true)
    (s : List Char) :
    ∀ b, hasDoubleSpace (collapseWithin p s b) = false ∧
      (b = true → headIsSpace (collapseWithin p s b) = false) := by
  induction s with
  | nil => intro b; exact ⟨rfl, fun _ => rfl⟩
  | cons c rest ih =>
    intro b
    by_cases hc : p c = true
    · cases b with
      | true =>
        simp only [collapseWithin, hc, if_true]
        exact ⟨(ih true).1, fun _ => (ih true).2 rfl⟩
      | false =>
        simp only [collapseWithin, hc, if_true, Bool.false_eq_true, if_false]
        refine ⟨?_, fun h => by cases h⟩
        rw [hds_cons, (ih true).1, (ih true).2 rfl]
        simp
    · have hcc : c ≠ ' ' := fun h => hc (h ▸ hp)
      simp only [collapseWithin, hc, Bool.false_eq_true, if_false]
      refine ⟨?_, fun _ => ?_⟩
      · rw [hds_cons, (ih false).1]
        simp [hcc]
      · simp [headIsSpace, hcc]

theorem leadsWith_nil (q : List Char) (h : leadsWith q [] = true) : q = [] := by
  cases q with
  | nil => rfl
  | cons a t => simp [leadsWith] at h

theorem containsSub_nil_pat (s : List Char) : containsSub [] s = true := by
  cases s <;> simp [containsSub, leadsWith]

/-- If a pattern made of non-class characters starts the collapsed
string, it starts the original string (a `false` scan state emits the
input's non-class head unchanged). -/
theorem leadsWith_collapseWithin (p : Char → Bool) (hp : p ' ' = true)
    (s : List Char) :
    ∀ q : List Char, (∀ x ∈ q, p x = false) →
      leadsWith q (collapseWithin p s false) = true → leadsWith q s = true := by
  induction s with
  | nil =>
    intro q hq h
    simp only [collapseWithin] at h
    rw [leadsWith_nil q h]
    rfl
  | cons c rest ih =>
    intro q hq h
    by_cases hc : p c = true
    · rw [show collapseWithin p (c :: rest) false = ' ' :: collapseWithin p rest true
        from by simp [collapseWithin, hc]] at h
      cases q with
      | nil => rfl
      | cons d q' =>
        simp only [leadsWith, Bool.and_eq_true, decide_eq_true_eq] at h
        have hd := hq d (by simp)
        rw [h.1, hp] at hd
        cases hd
    · rw [show collapseWithin p (c :: rest) false = c :: collapseWithin p rest false
        from by simp [collapseWithin, hc]] at h
      cases q with
      | nil => rfl
      | cons d q' =>
        simp only [leadsWith, Bool.and_eq_true, decide_eq_true_eq] at h ⊢
        exact ⟨h.1, ih q' (fun x hx => hq x (by simp [hx])) h.2⟩

/-- An occurrence of a pattern of non-class characters in the collapsed
string comes from an occurrence in the original string. -/
theorem containsSub_collapseWithin (p : Char → Bool) (hp : p ' ' = true)
    (s : List Char) :
    ∀ (b : Bool) (q : List Char), (∀ x ∈ q, p x = false) →
      containsSub q (collapseWithin p s b) = true → containsSub q s = true := by
  induction s with
  | nil =>
    intro b q hq h
    simpa only [collapseWithin] using h
  | cons c rest ih =>
    intro b q hq h
    by_cases hc : p c = true
    · cases b with
      | true =>
        rw [show collapseWithin p (c :: rest) true = collapseWithin p rest true
          from by simp [collapseWithin, hc]] at h
        have := ih true q hq h
        simp [containsSub, this]
      | false =>
        rw [show collapseWithin p (c :: rest) false = ' ' :: collapseWithin p rest true
          from by simp [collapseWithin, hc]] at h
        simp only [containsSub, Bool.or_eq_true] at h
        cases h with
        | inl hlead =>
          cases q with
          | nil => exact containsSub_nil_pat _
          | cons d q' =>
            simp only [leadsWith, Bool.and_eq_true, decide_eq_true_eq] at hlead
            have hd := hq d (by simp)
            rw [hlead.1, hp] at hd
            cases hd
        | inr hrest =>
          have := ih true q hq hrest
          simp [containsSub, this]
    · rw [show collapseWithin p (c :: rest) b = c :: collapseWithin p rest false
        from by simp [collapseWithin, hc]] at h
      simp only [containsSub, Bool.or_eq_true] at h ⊢
      cases h with
      | inl hlead =>
        cases q with
        | nil => left; exact (by simp [leadsWith] : leadsWith [] (c :: rest) = true)
        | cons d q' =>
          simp only [leadsWith, Bool.and_eq_true, decide_eq_true_eq] at hlead ⊢
          exact Or.inl ⟨hlead.1,
            leadsWith_collapseWithin p hp rest q'
              (fun x hx => hq x (by simp [hx])) hlead.2⟩
      | inr hrest => exact Or.inr (ih false q hq hrest)

theorem lstripWS_eats (s : List Char) : ∃ t, s = t ++ lstripWS s := by
  induction s with
  | nil => exact ⟨[], rfl⟩
  | cons c rest ih =>
    by_cases hc : isPySpace c = true
    · obtain ⟨t, ht⟩ := ih
      have hl : lstripWS (c :: rest) = lstripWS rest := by
        simp [lstripWS, List.dropWhile_cons, hc]
      refine ⟨c :: t, ?_⟩
      rw [hl, List.cons_append, ← ht]
    · have hl : lstripWS (c :: rest) = c :: rest := by
        simp [lstripWS, List.dropWhile_cons, hc]
      exact ⟨[], by rw [hl, List.nil_append]⟩

theorem rstripWS_eats (s : List Char) : ∃ t, s = rstripWS s ++ t := by
  induction s with
  | nil => exact ⟨[], rfl⟩
  | cons c rest ih =>
    cases h : rstripWS rest with
    | nil =>
      by_cases hc : isPySpace c = true
      · refine ⟨c :: rest, ?_⟩
        rw [rstripWS, h, if_pos hc, List.nil_append]
      · obtain ⟨t, ht⟩ := ih
        rw [h, List.nil_append] at ht
        refine ⟨rest, ?_⟩
        rw [rstripWS, h, if_neg hc]
        rfl
    | cons r0 r' =>
      obtain ⟨t, ht⟩ := ih
      rw [h] at ht
      refine ⟨t, ?_⟩
      rw [rstripWS, h]
      rw [List.cons_append, ← ht]

theorem leadsWith_append (q u t : List Char) (h : leadsWith q u = true) :
    leadsWith q (u ++ t) = true := by
  induction u generalizing q with
  | nil =>
    rw [leadsWith_nil q h]
    cases t <;> simp [leadsWith]
  | cons a u' ih =>
    cases q with
    | nil => simp [leadsWith]
    | cons d q' =>
      simp only [leadsWith, Bool.and_eq_true] at h ⊢
      exact ⟨h.1, ih q' h.2⟩

theorem containsSub_append_right (q u t : List Char)
    (h : containsSub q u = true) : containsSub q (u ++ t) = true := by
  induction u with
  | nil =>
    rw [leadsWith_nil q (by simpa [containsSub] using h)]
    exact containsSub_nil_pat _
  | cons a u' ih =>
    simp only [containsSub, Bool.or_eq_true] at h
    rw [List.cons_append]
    simp only [containsSub, Bool.or_eq_true]
    cases h with
    | inl hl => exact Or.inl (leadsWith_append q (a :: u') t hl)
    | inr hr => exact Or.inr (ih hr)

theorem containsSub_append_left (q t u : List Char)
    (h : containsSub q u = true) : containsSub q (t ++ u) = true := by
  induction t with
  | nil => simpa using h
  | cons a t' ih =>
    rw [List.cons_append]
    simp only [containsSub, Bool.or_eq_true]
    exact Or.inr ih

theorem containsSub_pyStrip (q s : List Char)
    (h : containsSub q (pyStrip s) = true) : containsSub q s = true := by
  obtain ⟨t1, ht1⟩ := lstripWS_eats s
  obtain ⟨t2, ht2⟩ := rstripWS_eats (lstripWS s)
  have h2 : containsSub q (lstripWS s) = true := by
    rw [ht2]
    exact containsSub_append_right q _ t2 h
  have h3 := containsSub_append_left q t1 (lstripWS s) h2
  rw [← ht1] at h3
  exact h3

theorem headIsSpace_append (u t : List Char) (hu : u ≠ []) :
    headIsSpace (u ++ t) = headIsSpace u := by
  cases u with
  | nil => exact absurd rfl hu
  | cons a u' => rfl

theorem hds_cons_of (c : Char) (l : List Char) (h : hasDoubleSpace l = true) :
    hasDoubleSpace (c :: l) = true := by
  rw [hds_cons, h]
  simp

theorem hds_append_right (t u : List Char) (h : hasDoubleSpace u = true) :
    hasDoubleSpace (t ++ u) = true := by
  induction t with
  | nil => simpa using h
  | cons a t' ih => exact hds_cons_of a _ ih

theorem hds_append_left (u t : List Char) (h : hasDoubleSpace u = true) :
    hasDoubleSpace (u ++ t) = true := by
  induction u with
  | nil => exact absurd h (by decide)
  | cons a u' ih =>
    rw [hds_cons] at h
    rw [List.cons_append, hds_cons]
    rcases Bool.or_eq_true_iff.mp h with hl | hr
    · have ha : (a = ' ' : Bool) = true := (Bool.and_eq_true_iff.mp hl).1
      have hh : headIsSpace u' = true := (Bool.and_eq_true_iff.mp hl).2
      have hu' : u' ≠ [] := by
        intro hnil; rw [hnil] at hh; cases hh
      rw [headIsSpace_append u' t hu', ha, hh]
      simp
    · rw [ih hr]
      simp

theorem hds_pyStrip (s : List Char) (h : hasDoubleSpace s = false) :
    hasDoubleSpace (pyStrip s) = false := by
  cases hx : hasDoubleSpace (pyStrip s) with
  | false => rfl
  | true =>
    obtain ⟨t1, ht1⟩ := lstripWS_eats s
    obtain ⟨t2, ht2⟩ := rstripWS_eats (lstripWS s)
    have h2 : hasDoubleSpace (lstripWS s) = true := by
      rw [ht2]
      exact hds_append_left _ t2 hx
    have h3 := hds_append_right t1 _ h2
    rw [← ht1, h] at h3
    cases h3

theorem hds_drop (n : Nat) : ∀ s : List Char, hasDoubleSpace s = false →
    hasDoubleSpace (s.drop n) = false := by
  induction n with
  | zero => intro s h; simpa using h
  | succ m ih =>
    intro s h
    cases s with
    | nil => simpa using h
    | cons a rest =>
      rw [List.drop_succ_cons]
      apply ih
      rw [hds_cons] at h
      exact (Bool.or_eq_false_iff.mp h).2

theorem replaceAllAux_of_not_contains (pat rep : List Char) :
    ∀ (fuel : Nat) (s : List Char), containsSub pat s = false →
      replaceAllAux pat rep fuel s = s := by
  intro fuel
  induction fuel with
  | zero => intro s h; cases s <;> rfl
  | succ f ih =>
    intro s h
    cases s with
    | nil => rfl
    | cons c rest =>
      simp only [containsSub, Bool.or_eq_false_iff] at h
      have hl : ¬ leadsWith pat (c :: rest) = true := by simp [h.1]
      simp only [replaceAllAux]
      rw [if_neg hl, ih rest h.2]

/-- Python `s.replace(pat, rep)` is the identity when `pat` does not
occur in `s`. -/
theorem replaceAll_of_not_contains (pat rep s : List Char)
    (h : containsSub pat s = false) : replaceAll pat rep s = s :=
  replaceAllAux_of_not_contains pat rep s.length s h

theorem headIsSpace_replaceAllAux (pat : List Char) (c : Char) (hc : c ≠ ' ') :
    ∀ (fuel : Nat) (s : List Char),
      headIsSpace (replaceAllAux pat [c] fuel s) = true →
      headIsSpace s = true := by
  intro fuel s
  cases fuel with
  | zero => cases s <;> exact fun h => h
  | succ f =>
    cases s with
    | nil => exact fun h => h
    | cons a rest =>
      simp only [replaceAllAux]
      by_cases hl : leadsWith pat (a :: rest) = true
      · rw [if_pos hl]
        intro h
        rw [List.singleton_append] at h
        simp [headIsSpace, hc] at h
      · rw [if_neg hl]
        exact fun h => h

theorem hds_replaceAllAux (pat : List Char) (c : Char) (hc : c ≠ ' ') :
    ∀ (fuel : Nat) (s : List Char), hasDoubleSpace s = false →
      hasDoubleSpace (replaceAllAux pat [c] fuel s) = false := by
  intro fuel
  induction fuel with
  | zero => intro s h; cases s <;> simpa using h
  | succ f ih =>
    intro s h
    cases s with
    | nil => simpa using h
    | cons a rest =>
      have hparts := Bool.or_eq_false_iff.mp (hds_cons a rest ▸ h)
      simp only [replaceAllAux]
      by_cases hl : leadsWith pat (a :: rest) = true
      · rw [if_pos hl, List.singleton_append, hds_cons]
        rw [ih _ (hds_drop pat.length (a :: rest) h)]
        simp [hc]
      · rw [if_neg hl, hds_cons]
        rw [ih rest hparts.2]
        by_cases ha : (a = ' ' : Bool) = true
        · have hhr : headIsSpace rest = false := by
            have := hparts.1
            rw [ha] at this
            simpa using this
          have hres : headIsSpace (replaceAllAux pat [c] f rest) = false := by
            cases hx : headIsSpace (replaceAllAux pat [c] f rest) with
            | false => rfl
            | true =>
              have := headIsSpace_replaceAllAux pat c hc f rest hx
              rw [hhr] at this
              cases this
          rw [hres]
          simp
        · simp only [Bool.not_eq_true] at ha
          rw [ha]
          simp

/-- `s.replace(pat, c)` for a single non-space character `c` preserves
the absence of adjacent double spaces. -/
theorem hds_replaceAll (pat : List Char) (c : Char) (hc : c ≠ ' ')
    (s : List Char) (h : hasDoubleSpace s = false) :
    hasDoubleSpace (replaceAll pat [c] s) = false :=
  hds_replaceAllAux pat c hc s.length s h

/-- As long as the incoming text contains no `&nbsp;`, `_clean_text`
output has no two adjacent spaces: the whitespace collapse leaves single
spaces, stripping and the remaining single-character entity replacements
preserve that, and the `&nbsp;` replacement is the identity. -/
theorem clean_text_no_double (t : List Char)
    (hnb : containsSub entNbsp t = false) :
    hasDoubleSpace (clean_text t) = false := by
  by_cases ht : t = []
  · subst ht; rfl
  · have hsp : isPySpace ' ' = true := by decide
    have h1 : hasDoubleSpace (collapsePySpaces t) = false :=
      (collapseWithin_no_double isPySpace hsp t false).1
    have h2 : hasDoubleSpace (pyStrip (collapsePySpaces t)) = false :=
      hds_pyStrip _ h1
    have hocc : containsSub entNbsp (pyStrip (collapsePySpaces t)) = false := by
      cases hx : containsSub entNbsp (pyStrip (collapsePySpaces t)) with
      | false => rfl
      | true =>
        have hx2 := containsSub_pyStrip _ _ hx
        have hx3 := containsSub_collapseWithin isPySpace hsp t false entNbsp
          (by decide) hx2
        rw [hnb] at hx3
        cases hx3
    have h3 : replaceAll entNbsp [' '] (pyStrip (collapsePySpaces t))
        = pyStrip (collapsePySpaces t) :=
      replaceAll_of_not_contains _ _ _ hocc
    simp only [clean_text, if_neg ht]
    rw [h3]
    exact hds_replaceAll _ '"' (by decide) _
      (hds_replaceAll _ '>' (by decide) _
        (hds_replaceAll _ '<' (by decide) _
          (hds_replaceAll _ '&' (by decide) _ h2)))

/-- The meta lookup table never produces the key `title`. -/
theorem keyFor_ne_kTitle (nm : List Char) (k : String)
    (h : keyFor nm = some k) : k ≠ kTitle := by
  unfold keyFor at h
  split_ifs at h <;>
    first
      | exact Option.noConfusion h
      | (injection h with h2; subst h2; decide)

theorem metaKV_key_not_title (m : MetaTag) (q : String × List Char)
    (h : metaKV m = some q) : (q.1 == kTitle) = false := by
  unfold metaKV at h
  cases hn : pyOrElse m.nameAttr m.propAttr with
  | none => rw [hn] at h; exact absurd h (by simp)
  | some nm =>
    cases hc : m.contentAttr with
    | none => rw [hn, hc] at h; exact absurd h (by simp)
    | some c =>
      rw [hn, hc] at h
      dsimp only at h
      by_cases hg : (nm = [] || c = []) = true
      · rw [if_pos hg] at h; exact absurd h (by simp)
      · rw [if_neg hg] at h
        obtain ⟨k, hk, hq⟩ := Option.map_eq_some'.mp h
        have hne := keyFor_ne_kTitle nm k hk
        rw [← hq]
        simpa using hne

/-- No `<meta>` tag contributes to the `title` key. -/
theorem filter_title_nil (ms : List MetaTag) :
    (ms.filterMap metaKV).filter (fun q => q.1 == kTitle) = [] := by
  induction ms with
  | nil => rfl
  | cons m rest ih =>
    cases hm : metaKV m with
    | none => rw [List.filterMap_cons_none hm]; exact ih
    | some q =>
      rw [List.filterMap_cons_some hm]
      rw [List.filter_cons_of_neg (by simp [metaKV_key_not_title m q hm])]
      exact ih

/-- **C5 (amended).** For a document with a `<title>`, the extracted
`title` value is the first title's text with whitespace runs collapsed to
single spaces and leading/trailing whitespace trimmed, and THEN the
entities `&nbsp; &amp; &lt; &gt; &quot;` decoded (in that order); since
`&nbsp;` decoding happens after whitespace collapsing, the result is free
of adjacent double spaces only when the title text contains no `&nbsp;`
(see the counterexample for the unconditional reading). -/
theorem c5_title_cleaned (d : HtmlDoc) (t : List Char)
    (ht : d.titles.head? = some t) :
    dictGet (extract_metadata d) kTitle = some (clean_text t) ∧
    (containsSub entNbsp t = false → hasDoubleSpace (clean_text t) = false) := by
  refine ⟨?_, clean_text_no_double t⟩
  unfold extract_metadata
  rw [ht]
  rw [dictGet_foldl_processMeta d.metas kTitle _, filter_title_nil d.metas]
  simp only [List.getLast?_nil]
  exact dictGet_dictInsert_same [] kTitle (clean_text t)

/-- Witness for C5 (amended): a concrete title containing runs of
whitespace and an `&amp;` entity, but no `&nbsp;`. -/
theorem c5_witness :
    dictGet (extract_metadata ⟨[titleWitness], []⟩) kTitle
        = some (clean_text titleWitness) ∧
    hasDoubleSpace (clean_text titleWitness) = false :=
  ⟨(c5_title_cleaned ⟨[titleWitness], []⟩ titleWitness rfl).1,
   (c5_title_cleaned ⟨[titleWitness], []⟩ titleWitness rfl).2 (by decide)⟩

/-- Counterexample for C5 as stated: the title `"a&nbsp;&nbsp;b"` has no
whitespace to collapse, and the later entity decoding turns the two
`&nbsp;` into two ADJACENT spaces — the extracted title contains a double
space, contradicting "the result never contains two adjacent space
characters". -/
theorem c5_counterexample :
    dictGet (extract_metadata ⟨[titleNbsp], []⟩) kTitle
        = some ("a  b".toList) ∧
    hasDoubleSpace ("a  b".toList) = true := by
  decide


end MDConverter
